import Mathlib

/-!
Shallow embedding of the `contigious-tree` library (`src/lib.rs`).

Byte buffers are modelled as `List Nat` (each entry a byte value below 256),
machine integers as `Nat`/`Int` with explicit reductions modulo `2 ^ 64`
where the Rust `u64` arithmetic could wrap.  Fallible operations return
`Except`/`Option`; a Rust panic (slice-index underflow / out-of-bounds) is
modelled by a dedicated error constructor or by `none`.
-/

set_option linter.unusedVariables false

namespace ContigiousTree

/-- `TREE_SIZE_SIZE`: byte width of the `TreeSize` (`u64`) trailer. -/
def TREE_SIZE_SIZE : Nat := 8

/-- Little-endian encoding of `n` into `w` bytes (`u64::to_le_bytes`,
`i32::to_le_bytes`, ... each producing their fixed width). -/
def toLeBytes : Nat → Nat → List Nat
  | 0, _ => []
  | w + 1, n => n % 256 :: toLeBytes w (n / 256)

/-- Little-endian decoding of a byte list (`u64::from_le_bytes` and friends). -/
def fromLeBytes : List Nat → Nat
  | [] => 0
  | b :: bs => b + 256 * fromLeBytes bs

/-- A `std::io::Write` sink of state type `ω`: `write_all` either appends the
bytes and returns the new sink state, or fails with an I/O error, carrying the
sink state the failed write left behind. -/
structure WriterImpl (ω : Type) where
  write_all : ω → List Nat → Except ω ω

/-- The `Node` trait: a pluggable value codec.  `write_value` writes the
value's bytes to the sink and returns the number of bytes written (an error
carries the sink state left by the failed write); `read_value` decodes a value
from the back of the given byte slice, returning the number of bytes consumed
(`none` models an out-of-bounds panic inside the codec). -/
structure NodeImpl (α ω : Type) where
  write_value : ω → α → Except ω (ω × Nat)
  read_value : List Nat → Option (Nat × α)

/-- `TreeBuilder`: the open-size stack (`Vec<TreeSize>`, top at the end of the
list, entries already reduced modulo `2 ^ 64`) together with the sink. -/
structure TreeBuilder (ω : Type) where
  open_node_sizes : List Nat
  writer : ω

/-- `TreeBuilder::new`. -/
def TreeBuilder.new (w : ω) : TreeBuilder ω := ⟨[], w⟩

/-- Outcome of one `write_node` call: success, an I/O error propagated by `?`
(carrying the builder state as the failed call leaves it), or the panic hit
when `num_children` exceeds the stack length (`len - num_children`
underflows). -/
inductive WriteNodeResult (ω : Type) where
  | ok (b : TreeBuilder ω)
  | ioError (b : TreeBuilder ω)
  | contractViolation

/-- `TreeBuilder::write_node`: write the value bytes, drain the last
`num_children` open sizes, write their sum plus the value size as the 8-byte
little-endian trailer, and push the node's own full size. -/
def write_node (N : NodeImpl α ω) (W : WriterImpl ω) (b : TreeBuilder ω)
    (value : α) (num_children : Nat) : WriteNodeResult ω :=
  match N.write_value b.writer value with
  | .error w => .ioError ⟨b.open_node_sizes, w⟩
  | .ok (w1, size_value) =>
    if num_children ≤ b.open_node_sizes.length then
      let keep := b.open_node_sizes.length - num_children
      let size_children := (b.open_node_sizes.drop keep).sum
      let total_size := (size_value + size_children) % 2 ^ 64
      match W.write_all w1 (toLeBytes TREE_SIZE_SIZE total_size) with
      | .error w2 => .ioError ⟨b.open_node_sizes.take keep, w2⟩
      | .ok w2 =>
        .ok ⟨b.open_node_sizes.take keep ++ [(total_size + TREE_SIZE_SIZE) % 2 ^ 64], w2⟩
    else .contractViolation

/-- Run a sequence of `write_node` calls, stopping at the first failure. -/
def runCalls (N : NodeImpl α ω) (W : WriterImpl ω) :
    TreeBuilder ω → List (α × Nat) → WriteNodeResult ω
  | b, [] => .ok b
  | b, (v, nc) :: rest =>
    match write_node N W b v nc with
    | .ok b' => runCalls N W b' rest
    | r => r

/-- `TreeVec::new`: takes ownership of the bytes, inspecting none of them. -/
def TreeVec.new (bytes : List Nat) : List Nat := bytes

/-- `TreeSlice::from_slice`: a pointer cast; the byte range is unchanged. -/
def TreeSlice.from_slice (bytes : List Nat) : List Nat := bytes

/-- `TreeSlice::read_node`: hand everything but the final 8 trailer bytes to
the codec, and return the decoded value together with the children region.
`none` models the panics on slice-index underflow / codec out-of-bounds. -/
def read_node (dec : List Nat → Option (Nat × α)) (bytes : List Nat) :
    Option (α × List Nat) :=
  if 8 ≤ bytes.length then
    match dec (bytes.take (bytes.length - TREE_SIZE_SIZE)) with
    | some (size_value, value) =>
      if size_value ≤ bytes.length - TREE_SIZE_SIZE then
        some (value, bytes.take (bytes.length - TREE_SIZE_SIZE - size_value))
      else none
    | none => none
  else none

/-- Outcome of one `Branches::next` call on a byte region: iteration finished
(`None`), one child subtree yielded together with the advanced region, or a
panic (region shorter than a trailer, or trailer value pointing outside the
region). -/
inductive NextResult where
  | done
  | item (child rest : List Nat)
  | outOfBounds
  deriving DecidableEq

/-- `Branches::next`: peel the child encoded in the final `t + 8` bytes off
the right end of the region, where `t` is the little-endian value of the
region's last 8 bytes. -/
def Branches.next (bytes : List Nat) : NextResult :=
  if bytes.isEmpty then .done
  else if TREE_SIZE_SIZE ≤ bytes.length then
    let tree_size := fromLeBytes (bytes.drop (bytes.length - TREE_SIZE_SIZE))
    if tree_size + TREE_SIZE_SIZE ≤ bytes.length then
      .item (bytes.drop (bytes.length - tree_size - TREE_SIZE_SIZE))
        (bytes.take (bytes.length - tree_size - TREE_SIZE_SIZE))
    else .outOfBounds
  else .outOfBounds

/-- Iterate `Branches::next` with explicit fuel, collecting the children
regions it yields in yield order; `none` if any step panics or the fuel runs
out. -/
def branchesListFuel : Nat → List Nat → Option (List (List Nat))
  | 0, _ => none
  | fuel + 1, bytes =>
    match Branches.next bytes with
    | .done => some []
    | .outOfBounds => none
    | .item child rest =>
      match branchesListFuel fuel rest with
      | some l => some (child :: l)
      | none => none

/-- Exhaust a `Branches` iterator: the list of children regions it yields, in
yield order; `none` if any step panics.  Since every yielded child occupies at
least 8 bytes of the region, `bytes.length + 1` steps always suffice. -/
def branchesList (bytes : List Nat) : Option (List (List Nat)) :=
  branchesListFuel (bytes.length + 1) bytes

/-- A value codec whose `write_value` simply emits a pure byte encoding via
the sink's `write_all` and reports its length (the shape of `LeI32` and
`U8`). -/
structure PureCodec (α : Type) where
  enc : α → List Nat
  dec : List Nat → Option (Nat × α)

/-- Package a pure codec as a `Node` implementation over a given sink type. -/
def PureCodec.toNodeImpl (P : PureCodec α) (W : WriterImpl ω) : NodeImpl α ω where
  write_value := fun w v =>
    match W.write_all w (P.enc v) with
    | .error w' => .error w'
    | .ok w' => .ok (w', (P.enc v).length)
  read_value := P.dec

/-- The `Vec<u8>` sink: `write_all` appends and never fails. -/
def vecWriter : WriterImpl (List Nat) := ⟨fun w bs => .ok (w ++ bs)⟩

/-- A sink with limited remaining capacity: `write_all` fails (writing
nothing) once the bytes do not fit.  Used to exercise the I/O-error paths. -/
def boundedWriter : WriterImpl (List Nat × Nat) :=
  ⟨fun w bs => if bs.length ≤ w.2 then .ok (w.1 ++ bs, w.2 - bs.length) else .error w⟩

/-- `i32::to_le_bytes`: two's-complement little-endian encoding. -/
def i32ToLeBytes (v : Int) : List Nat := toLeBytes 4 (v % 2 ^ 32).toNat

/-- `i32::from_le_bytes` of 4 little-endian bytes. -/
def i32FromLeBytes (bs : List Nat) : Int :=
  if fromLeBytes bs < 2 ^ 31 then (fromLeBytes bs : Int)
  else (fromLeBytes bs : Int) - 2 ^ 32

/-- The `LeI32` codec: 4-byte little-endian `i32`; reading panics (`none`)
when fewer than 4 bytes remain in front of the trailer. -/
def LeI32 : PureCodec Int where
  enc := i32ToLeBytes
  dec := fun bytes =>
    if 4 ≤ bytes.length then
      some (4, i32FromLeBytes (bytes.drop (bytes.length - 4)))
    else none

/-- The `U8` codec: a single byte; reading panics (`none`) on an empty
slice. -/
def U8 : PureCodec Nat where
  enc := fun v => toLeBytes 1 v
  dec := fun bytes =>
    if 1 ≤ bytes.length then
      some (1, fromLeBytes (bytes.drop (bytes.length - 1)))
    else none

/-- Logical trees: one value and an ordered list of child trees. -/
inductive Tree (α : Type) where
  | node (value : α) (children : List (Tree α))

mutual

/-- The byte encoding the builder produces for one tree written in
depth-first post-order: children encodings in insertion order, then the value
bytes, then the 8-byte trailer holding the byte length of everything before
it within this node. -/
def encodeTree (enc : α → List Nat) : Tree α → List Nat
  | .node v cs =>
    encodeForest enc cs ++ enc v ++
      toLeBytes TREE_SIZE_SIZE ((enc v).length + (encodeForest enc cs).length)

/-- Concatenation of the encodings of a list of sibling trees, left to
right. -/
def encodeForest (enc : α → List Nat) : List (Tree α) → List Nat
  | [] => []
  | t :: ts => encodeTree enc t ++ encodeForest enc ts

end

mutual

/-- The depth-first post-order `write_node` call sequence for a tree. -/
def postOrderCalls : Tree α → List (α × Nat)
  | .node v cs => forestCalls cs ++ [(v, cs.length)]

/-- The call sequences of a list of sibling trees, concatenated. -/
def forestCalls : List (Tree α) → List (α × Nat)
  | [] => []
  | t :: ts => postOrderCalls t ++ forestCalls ts

end

mutual

/-- Every node's full encoded size fits a `u64`, so none of the builder's
size arithmetic wraps. -/
def fitsTree (enc : α → List Nat) : Tree α → Bool
  | .node v cs =>
    decide ((encodeForest enc cs).length + (enc v).length + TREE_SIZE_SIZE < 2 ^ 64) &&
      fitsForest enc cs

/-- `fitsTree` for every tree in a list. -/
def fitsForest (enc : α → List Nat) : List (Tree α) → Bool
  | [] => true
  | t :: ts => fitsTree enc t && fitsForest enc ts

end

/-- The value stored in a tree's trailer: the little-endian reading of the
last 8 bytes of its encoding. -/
def trailerValue (enc : α → List Nat) (t : Tree α) : Nat :=
  fromLeBytes ((encodeTree enc t).drop ((encodeTree enc t).length - TREE_SIZE_SIZE))

mutual

/-- Size accounting at every depth: each node's trailer equals its value-byte
count plus the trailer-inclusive encoded length (`trailer + 8`) of each of
its children, recursively. -/
def trailerInvariant (enc : α → List Nat) : Tree α → Prop
  | .node v cs =>
    trailerValue enc (.node v cs) =
      (enc v).length + (cs.map fun c => trailerValue enc c + TREE_SIZE_SIZE).sum ∧
    forestInvariant enc cs

/-- `trailerInvariant` for every tree in a list. -/
def forestInvariant (enc : α → List Nat) : List (Tree α) → Prop
  | [] => True
  | t :: ts => trailerInvariant enc t ∧ forestInvariant enc ts

end

/-! ### Byte-level lemmas -/

theorem toLeBytes_length (w n : Nat) : (toLeBytes w n).length = w := by
  induction w generalizing n with
  | zero => rfl
  | succ w ih => simp [toLeBytes, ih]

theorem fromLeBytes_toLeBytes (w n : Nat) :
    fromLeBytes (toLeBytes w n) = n % 256 ^ w := by
  induction w generalizing n with
  | zero => simp [toLeBytes, fromLeBytes, Nat.mod_one]
  | succ w ih =>
    rw [toLeBytes, fromLeBytes, ih, pow_succ, mul_comm (256 ^ w) 256, Nat.mod_mul]

theorem i32FromLeBytes_i32ToLeBytes (v : Int) (h1 : -2 ^ 31 ≤ v) (h2 : v < 2 ^ 31) :
    i32FromLeBytes (i32ToLeBytes v) = v := by
  have hmod : (0:Int) ≤ v % 2 ^ 32 := Int.emod_nonneg v (by norm_num)
  have hmod2 : v % 2 ^ 32 < 2 ^ 32 := Int.emod_lt_of_pos v (by norm_num)
  have hcase : v % 2 ^ 32 = v ∨ v % 2 ^ 32 = v + 2 ^ 32 := by omega
  unfold i32FromLeBytes i32ToLeBytes
  rw [fromLeBytes_toLeBytes]
  have hlt : (v % 2 ^ 32).toNat < 256 ^ 4 := by norm_num; omega
  rw [Nat.mod_eq_of_lt hlt]
  split <;> omega

/-! ### Codec lemmas -/

theorem LeI32_enc_length (v : Int) : (LeI32.enc v).length = 4 := by
  simp [LeI32, i32ToLeBytes, toLeBytes_length]

theorem LeI32_dec_append (pre : List Nat) (v : Int)
    (h1 : -2 ^ 31 ≤ v) (h2 : v < 2 ^ 31) :
    LeI32.dec (pre ++ LeI32.enc v) = some ((LeI32.enc v).length, v) := by
  have hl : (LeI32.enc v).length = 4 := LeI32_enc_length v
  have hlen : (pre ++ LeI32.enc v).length = pre.length + 4 := by simp [hl]
  have hdrop : (pre ++ LeI32.enc v).drop ((pre ++ LeI32.enc v).length - 4) = LeI32.enc v := by
    rw [hlen]
    exact List.drop_left' (by omega)
  show LeI32.dec (pre ++ LeI32.enc v) = some (4, v)
  simp only [LeI32] at hdrop ⊢
  rw [hdrop, if_pos (by simp [i32ToLeBytes, toLeBytes_length])]
  rw [i32FromLeBytes_i32ToLeBytes v h1 h2]

theorem U8_enc_length (v : Nat) : (U8.enc v).length = 1 := by
  simp [U8, toLeBytes_length]

theorem U8_dec_append (pre : List Nat) (v : Nat) (h : v < 256) :
    U8.dec (pre ++ U8.enc v) = some ((U8.enc v).length, v) := by
  have hl : (U8.enc v).length = 1 := U8_enc_length v
  have hlen : (pre ++ U8.enc v).length = pre.length + 1 := by simp [hl]
  have hdrop : (pre ++ U8.enc v).drop ((pre ++ U8.enc v).length - 1) = U8.enc v := by
    rw [hlen]
    exact List.drop_left' (by omega)
  show U8.dec (pre ++ U8.enc v) = some (1, v)
  simp only [U8] at hdrop ⊢
  rw [hdrop, if_pos (by simp [toLeBytes_length])]
  simp [toLeBytes, fromLeBytes, Nat.mod_eq_of_lt h]

/-! ### Structure of the encoding -/

theorem encodeTree_node (enc : α → List Nat) (v : α) (cs : List (Tree α)) :
    encodeTree enc (.node v cs) =
      encodeForest enc cs ++ enc v ++
        toLeBytes TREE_SIZE_SIZE ((enc v).length + (encodeForest enc cs).length) := by
  simp [encodeTree]

theorem encodeForest_cons (enc : α → List Nat) (t : Tree α) (ts : List (Tree α)) :
    encodeForest enc (t :: ts) = encodeTree enc t ++ encodeForest enc ts := by
  simp [encodeForest]

theorem encodeForest_append (enc : α → List Nat) (cs ds : List (Tree α)) :
    encodeForest enc (cs ++ ds) = encodeForest enc cs ++ encodeForest enc ds := by
  induction cs with
  | nil => simp [encodeForest]
  | cons t ts ih => simp [encodeForest, ih]

theorem encodeTree_length (enc : α → List Nat) (v : α) (cs : List (Tree α)) :
    (encodeTree enc (.node v cs)).length =
      (encodeForest enc cs).length + (enc v).length + TREE_SIZE_SIZE := by
  rw [encodeTree_node]
  simp [toLeBytes_length]
  omega

theorem encodeTree_length_ge (enc : α → List Nat) (t : Tree α) :
    TREE_SIZE_SIZE ≤ (encodeTree enc t).length := by
  obtain ⟨v, cs⟩ := t
  rw [encodeTree_length]
  omega

theorem encodeForest_length (enc : α → List Nat) (cs : List (Tree α)) :
    (encodeForest enc cs).length =
      (cs.map fun c => (encodeTree enc c).length).sum := by
  induction cs with
  | nil => simp [encodeForest]
  | cons t ts ih => simp [encodeForest, ih]

/-! ### Fitting in a `u64` -/

theorem fitsTree_node_iff (enc : α → List Nat) (v : α) (cs : List (Tree α)) :
    fitsTree enc (.node v cs) = true ↔
      ((encodeForest enc cs).length + (enc v).length + TREE_SIZE_SIZE < 2 ^ 64 ∧
        fitsForest enc cs = true) := by
  simp [fitsTree]

theorem fitsForest_cons_iff (enc : α → List Nat) (t : Tree α) (ts : List (Tree α)) :
    fitsForest enc (t :: ts) = true ↔
      (fitsTree enc t = true ∧ fitsForest enc ts = true) := by
  simp [fitsForest]

theorem fitsForest_append_iff (enc : α → List Nat) (cs ds : List (Tree α)) :
    fitsForest enc (cs ++ ds) = true ↔
      (fitsForest enc cs = true ∧ fitsForest enc ds = true) := by
  induction cs with
  | nil => simp [fitsForest]
  | cons t ts ih => simp [fitsForest, ih]; tauto

theorem fitsTree_length_lt (enc : α → List Nat) (t : Tree α)
    (hfit : fitsTree enc t = true) : (encodeTree enc t).length < 2 ^ 64 := by
  obtain ⟨v, cs⟩ := t
  rw [fitsTree_node_iff] at hfit
  rw [encodeTree_length]
  omega

/-! ### Builder lemmas -/

theorem write_node_pure (P : PureCodec α) (stack buf : List Nat) (v : α) (nc : Nat)
    (h : nc ≤ stack.length) :
    write_node (P.toNodeImpl vecWriter) vecWriter ⟨stack, buf⟩ v nc =
      .ok ⟨stack.take (stack.length - nc) ++
            [(((P.enc v).length + (stack.drop (stack.length - nc)).sum) % 2 ^ 64 +
              TREE_SIZE_SIZE) % 2 ^ 64],
          buf ++ P.enc v ++
            toLeBytes TREE_SIZE_SIZE
              (((P.enc v).length + (stack.drop (stack.length - nc)).sum) % 2 ^ 64)⟩ := by
  simp [write_node, PureCodec.toNodeImpl, vecWriter, h, List.append_assoc]

theorem runCalls_append (N : NodeImpl α ω) (W : WriterImpl ω) (b : TreeBuilder ω)
    (l1 l2 : List (α × Nat)) :
    runCalls N W b (l1 ++ l2) =
      match runCalls N W b l1 with
      | .ok b' => runCalls N W b' l2
      | r => r := by
  induction l1 generalizing b with
  | nil => simp [runCalls]
  | cons p rest ih =>
    obtain ⟨v, nc⟩ := p
    simp only [List.cons_append, runCalls]
    cases write_node N W b v nc <;> simp [ih]

mutual

theorem runCalls_postOrder (P : PureCodec α) (v : α) (cs : List (Tree α))
    (hfit : fitsTree P.enc (.node v cs) = true) (stack buf : List Nat) :
    runCalls (P.toNodeImpl vecWriter) vecWriter ⟨stack, buf⟩
        (postOrderCalls (.node v cs)) =
      .ok ⟨stack ++ [(encodeTree P.enc (.node v cs)).length],
           buf ++ encodeTree P.enc (.node v cs)⟩ := by
  rw [fitsTree_node_iff] at hfit
  rw [postOrderCalls, runCalls_append,
    runCalls_forest P cs hfit.2 stack buf]
  have hlen : cs.length ≤ (stack ++ cs.map fun c => (encodeTree P.enc c).length).length := by
    simp
  simp only [runCalls]
  rw [write_node_pure P _ _ v cs.length hlen]
  have hkeep : (stack ++ cs.map fun c => (encodeTree P.enc c).length).length - cs.length
      = stack.length := by simp
  have hdrop : ((stack ++ cs.map fun c => (encodeTree P.enc c).length).drop
      ((stack ++ cs.map fun c => (encodeTree P.enc c).length).length - cs.length))
      = cs.map fun c => (encodeTree P.enc c).length := by
    rw [hkeep]
    exact List.drop_left _ _
  have htake : ((stack ++ cs.map fun c => (encodeTree P.enc c).length).take
      ((stack ++ cs.map fun c => (encodeTree P.enc c).length).length - cs.length))
      = stack := by
    rw [hkeep]
    exact List.take_left _ _
  rw [hdrop, htake]
  have hsum : (cs.map fun c => (encodeTree P.enc c).length).sum
      = (encodeForest P.enc cs).length := (encodeForest_length P.enc cs).symm
  rw [hsum]
  have hraw : ((P.enc v).length + (encodeForest P.enc cs).length) % 2 ^ 64
      = (P.enc v).length + (encodeForest P.enc cs).length := by
    apply Nat.mod_eq_of_lt
    have := hfit.1
    simp only [TREE_SIZE_SIZE] at this
    omega
  rw [hraw]
  have hpush : ((P.enc v).length + (encodeForest P.enc cs).length + TREE_SIZE_SIZE) % 2 ^ 64
      = (P.enc v).length + (encodeForest P.enc cs).length + TREE_SIZE_SIZE := by
    apply Nat.mod_eq_of_lt
    have := hfit.1
    simp only [TREE_SIZE_SIZE] at this ⊢
    omega
  rw [hpush]
  rw [encodeTree_length, encodeTree_node]
  have hcomm : (encodeForest P.enc cs).length + (P.enc v).length + TREE_SIZE_SIZE
      = (P.enc v).length + (encodeForest P.enc cs).length + TREE_SIZE_SIZE := by omega
  rw [hcomm]
  simp [List.append_assoc]
termination_by sizeOf cs + 1

theorem runCalls_forest (P : PureCodec α) (cs : List (Tree α))
    (hfit : fitsForest P.enc cs = true) (stack buf : List Nat) :
    runCalls (P.toNodeImpl vecWriter) vecWriter ⟨stack, buf⟩ (forestCalls cs) =
      .ok ⟨stack ++ cs.map fun c => (encodeTree P.enc c).length,
           buf ++ encodeForest P.enc cs⟩ := by
  match cs, hfit with
  | [], _ => simp [forestCalls, runCalls, encodeForest]
  | .node v' cs' :: ts, hfit =>
    rw [fitsForest_cons_iff] at hfit
    rw [forestCalls, runCalls_append,
      runCalls_postOrder P v' cs' hfit.1 stack buf]
    simp only [runCalls_forest P ts hfit.2]
    simp [encodeForest, List.append_assoc]
termination_by sizeOf cs

end

/-! ### Reader lemmas -/

theorem read_node_encodeTree (P : PureCodec α) (v : α) (cs : List (Tree α))
    (hdec : ∀ pre : List Nat, P.dec (pre ++ P.enc v) = some ((P.enc v).length, v)) :
    read_node P.dec (encodeTree P.enc (.node v cs)) =
      some (v, encodeForest P.enc cs) := by
  have hlen := encodeTree_length P.enc v cs
  have htake : (encodeTree P.enc (.node v cs)).take
      ((encodeTree P.enc (.node v cs)).length - TREE_SIZE_SIZE)
      = encodeForest P.enc cs ++ P.enc v := by
    rw [hlen, encodeTree_node]
    exact List.take_left' (by simp [TREE_SIZE_SIZE])
  have htake2 : (encodeTree P.enc (.node v cs)).take
      ((encodeTree P.enc (.node v cs)).length - TREE_SIZE_SIZE - (P.enc v).length)
      = encodeForest P.enc cs := by
    rw [hlen, encodeTree_node, List.append_assoc]
    have h1 : (encodeForest P.enc cs).length + (P.enc v).length + TREE_SIZE_SIZE
        - TREE_SIZE_SIZE - (P.enc v).length = (encodeForest P.enc cs).length := by
      omega
    rw [h1]
    exact List.take_left _ _
  rw [read_node, if_pos (by rw [hlen]; simp [TREE_SIZE_SIZE]), htake, hdec]
  show (if (P.enc v).length ≤ (encodeTree P.enc (Tree.node v cs)).length - TREE_SIZE_SIZE
      then some (v, (encodeTree P.enc (Tree.node v cs)).take
        ((encodeTree P.enc (Tree.node v cs)).length - TREE_SIZE_SIZE - (P.enc v).length))
      else none) = some (v, encodeForest P.enc cs)
  rw [if_pos (by rw [hlen]; simp [TREE_SIZE_SIZE]), htake2]

theorem next_item_bounds {bytes child rest : List Nat}
    (h : Branches.next bytes = .item child rest) :
    rest.length + TREE_SIZE_SIZE ≤ bytes.length := by
  simp only [Branches.next, TREE_SIZE_SIZE] at h ⊢
  split at h
  · simp at h
  · split at h
    · split at h
      · simp only [NextResult.item.injEq] at h
        obtain ⟨hc, hr⟩ := h
        subst hr
        simp only [List.length_take]
        omega
      · simp at h
    · simp at h

theorem next_append_encodeTree (enc : α → List Nat) (buf : List Nat) (t : Tree α)
    (hfit : fitsTree enc t = true) :
    Branches.next (buf ++ encodeTree enc t) = .item (encodeTree enc t) buf := by
  obtain ⟨v, cs⟩ := t
  rw [fitsTree_node_iff] at hfit
  have hlen := encodeTree_length enc v cs
  have hblen : (buf ++ encodeTree enc (.node v cs)).length
      = buf.length + ((encodeForest enc cs).length + (enc v).length) + TREE_SIZE_SIZE := by
    rw [List.length_append, hlen]
    omega
  have he : buf ++ encodeTree enc (.node v cs)
      = (buf ++ (encodeForest enc cs ++ enc v)) ++
        toLeBytes TREE_SIZE_SIZE ((enc v).length + (encodeForest enc cs).length) := by
    rw [encodeTree_node]
    simp [List.append_assoc]
  have hdrop8 : (buf ++ encodeTree enc (.node v cs)).drop
      ((buf ++ encodeTree enc (.node v cs)).length - TREE_SIZE_SIZE)
      = toLeBytes TREE_SIZE_SIZE ((enc v).length + (encodeForest enc cs).length) := by
    rw [hblen, he]
    exact List.drop_left' (by simp)
  have hfrom : fromLeBytes
      (toLeBytes TREE_SIZE_SIZE ((enc v).length + (encodeForest enc cs).length))
      = (enc v).length + (encodeForest enc cs).length := by
    simp only [TREE_SIZE_SIZE]
    rw [fromLeBytes_toLeBytes]
    apply Nat.mod_eq_of_lt
    have h1 := hfit.1
    simp only [TREE_SIZE_SIZE] at h1
    have h2 : (256 : Nat) ^ 8 = 2 ^ 64 := by norm_num
    omega
  have hne : ¬ (buf ++ encodeTree enc (.node v cs)).isEmpty = true := by
    rw [List.isEmpty_iff]
    intro hcon
    have hc := congrArg List.length hcon
    rw [hblen] at hc
    simp only [TREE_SIZE_SIZE, List.length_nil] at hc
    omega
  rw [Branches.next, if_neg hne, if_pos (by rw [hblen]; omega)]
  simp only [hdrop8, hfrom]
  rw [if_pos (by rw [hblen]; omega)]
  have hmid : (buf ++ encodeTree enc (.node v cs)).length
      - ((enc v).length + (encodeForest enc cs).length) - TREE_SIZE_SIZE
      = buf.length := by rw [hblen]; omega
  rw [hmid, @List.drop_left' _ buf _ _ rfl, @List.take_left' _ buf _ _ rfl]

theorem branchesListFuel_eq_branchesList (fuel : Nat) (bytes : List Nat)
    (h : bytes.length < fuel) :
    branchesListFuel fuel bytes = branchesList bytes := by
  induction fuel using Nat.strong_induction_on generalizing bytes with
  | _ fuel ih =>
    match fuel, h with
    | f + 1, h =>
      rw [branchesList, branchesListFuel, branchesListFuel]
      cases hn : Branches.next bytes with
      | done => rfl
      | outOfBounds => rfl
      | item child rest =>
        have hb := next_item_bounds hn
        simp only [TREE_SIZE_SIZE] at hb
        dsimp only
        rw [ih f (by omega) rest (by omega),
          ih bytes.length (by omega) rest (by omega)]

theorem branchesList_empty : branchesList ([] : List Nat) = some [] := by
  rw [branchesList]
  rfl

theorem branchesList_encodeForest (enc : α → List Nat) (cs : List (Tree α))
    (hfit : fitsForest enc cs = true) :
    branchesList (encodeForest enc cs) = some ((cs.map (encodeTree enc)).reverse) := by
  induction cs using List.reverseRecOn with
  | nil => simpa [encodeForest] using branchesList_empty
  | append_singleton ds d ih =>
    rw [fitsForest_append_iff] at hfit
    have hfitd : fitsTree enc d = true := by
      have := hfit.2
      rw [fitsForest_cons_iff] at this
      exact this.1
    rw [encodeForest_append]
    have hnext := next_append_encodeTree enc (encodeForest enc ds) d hfitd
    have hd1 : encodeForest enc [d] = encodeTree enc d := by
      simp [encodeForest]
    rw [hd1, branchesList, branchesListFuel, hnext]
    have hlen8 := encodeTree_length_ge enc d
    have hrec : branchesListFuel (encodeForest enc ds ++ encodeTree enc d).length
        (encodeForest enc ds) = branchesList (encodeForest enc ds) := by
      apply branchesListFuel_eq_branchesList
      simp only [List.length_append, TREE_SIZE_SIZE] at hlen8 ⊢
      omega
    dsimp only
    rw [hrec, ih hfit.1]
    simp

/-! ### Trailer lemmas -/

theorem trailerValue_eq (enc : α → List Nat) (t : Tree α)
    (hfit : fitsTree enc t = true) :
    trailerValue enc t = (encodeTree enc t).length - TREE_SIZE_SIZE := by
  obtain ⟨v, cs⟩ := t
  have hnext := next_append_encodeTree enc [] (.node v cs) hfit
  rw [fitsTree_node_iff] at hfit
  have hlen := encodeTree_length enc v cs
  have hdrop8 : (encodeTree enc (.node v cs)).drop
      ((encodeTree enc (.node v cs)).length - TREE_SIZE_SIZE)
      = toLeBytes TREE_SIZE_SIZE ((enc v).length + (encodeForest enc cs).length) := by
    rw [hlen, encodeTree_node]
    exact List.drop_left' (by simp [TREE_SIZE_SIZE])
  have hfrom : fromLeBytes
      (toLeBytes TREE_SIZE_SIZE ((enc v).length + (encodeForest enc cs).length))
      = (enc v).length + (encodeForest enc cs).length := by
    simp only [TREE_SIZE_SIZE]
    rw [fromLeBytes_toLeBytes]
    apply Nat.mod_eq_of_lt
    have h1 := hfit.1
    simp only [TREE_SIZE_SIZE] at h1
    have h2 : (256 : Nat) ^ 8 = 2 ^ 64 := by norm_num
    omega
  rw [trailerValue, hdrop8, hfrom, hlen]
  omega

theorem sum_trailerValue (enc : α → List Nat) (cs : List (Tree α))
    (hfit : fitsForest enc cs = true) :
    (cs.map fun c => trailerValue enc c + TREE_SIZE_SIZE).sum
      = (encodeForest enc cs).length := by
  induction cs with
  | nil => simp [encodeForest]
  | cons t ts ih =>
    rw [fitsForest_cons_iff] at hfit
    have h8 := encodeTree_length_ge enc t
    rw [List.map_cons, List.sum_cons, ih hfit.2, encodeForest_cons,
      trailerValue_eq enc t hfit.1, List.length_append]
    omega

mutual

theorem trailerInvariant_holds (enc : α → List Nat) (v : α) (cs : List (Tree α))
    (hfit : fitsTree enc (.node v cs) = true) :
    trailerInvariant enc (.node v cs) := by
  have hfit' := hfit
  rw [fitsTree_node_iff] at hfit'
  rw [trailerInvariant]
  constructor
  · rw [trailerValue_eq enc _ hfit, sum_trailerValue enc cs hfit'.2,
      encodeTree_length]
    omega
  · exact forestInvariant_holds enc cs hfit'.2
termination_by sizeOf cs + 1

theorem forestInvariant_holds (enc : α → List Nat) (cs : List (Tree α))
    (hfit : fitsForest enc cs = true) :
    forestInvariant enc cs := by
  match cs, hfit with
  | [], _ => rw [forestInvariant]; trivial
  | .node v' cs' :: ts, hfit =>
    rw [fitsForest_cons_iff] at hfit
    rw [forestInvariant]
    exact ⟨trailerInvariant_holds enc v' cs' hfit.1, forestInvariant_holds enc ts hfit.2⟩
termination_by sizeOf cs

end

/-! ### Claim theorems -/

/-- C1: writing any `i32` value `v` via the `LeI32` codec with
`write_node v 0` into an empty sink produces a buffer of exactly 12 bytes
(4 value bytes followed by the 8-byte trailer) whose trailer value is 4, and
`read_node` on a `TreeVec` over that buffer returns `v` together with a
`Branches` iterator whose first `next` call yields nothing. -/
theorem claim1_leaf_roundtrip (v : Int) (h1 : -2 ^ 31 ≤ v) (h2 : v < 2 ^ 31) :
    write_node (LeI32.toNodeImpl vecWriter) vecWriter (TreeBuilder.new []) v 0 =
      .ok ⟨[12], i32ToLeBytes v ++ toLeBytes 8 4⟩ ∧
    (i32ToLeBytes v ++ toLeBytes 8 4).length = 12 ∧
    fromLeBytes ((i32ToLeBytes v ++ toLeBytes 8 4).drop 4) = 4 ∧
    read_node LeI32.dec (TreeVec.new (i32ToLeBytes v ++ toLeBytes 8 4)) =
      some (v, []) ∧
    Branches.next [] = .done := by
  have hl : (i32ToLeBytes v).length = 4 := by simp [i32ToLeBytes, toLeBytes_length]
  have hbuf : encodeTree LeI32.enc (.node v []) = i32ToLeBytes v ++ toLeBytes 8 4 := by
    rw [encodeTree_node]
    simp [encodeForest, LeI32, hl, TREE_SIZE_SIZE]
  refine ⟨?_, ?_, ?_, ?_, rfl⟩
  · rw [TreeBuilder.new, write_node_pure LeI32 [] [] v 0 (by simp)]
    simp [LeI32, hl, TREE_SIZE_SIZE]
  · simp [hl, toLeBytes_length]
  · rw [List.drop_left' hl, fromLeBytes_toLeBytes]
    norm_num
  · rw [TreeVec.new, ← hbuf,
      read_node_encodeTree LeI32 v [] (fun pre => LeI32_dec_append pre v h1 h2)]
    simp [encodeForest]

/-- C1 witness at `v = 42`. -/
theorem claim1_leaf_roundtrip_witness :
    write_node (LeI32.toNodeImpl vecWriter) vecWriter (TreeBuilder.new []) 42 0 =
      .ok ⟨[12], i32ToLeBytes 42 ++ toLeBytes 8 4⟩ ∧
    (i32ToLeBytes 42 ++ toLeBytes 8 4).length = 12 ∧
    fromLeBytes ((i32ToLeBytes 42 ++ toLeBytes 8 4).drop 4) = 4 ∧
    read_node LeI32.dec (TreeVec.new (i32ToLeBytes 42 ++ toLeBytes 8 4)) =
      some (42, []) ∧
    Branches.next [] = .done :=
  claim1_leaf_roundtrip 42 (by decide) (by decide)

/-- C3: a successful `write_node value num_children` with
`num_children ≤ s` (the open-size stack length): the codec's value bytes are
written to the sink, the last `num_children` stack entries are popped and
summed, an 8-byte little-endian trailer holding `size_value + size_children`
follows the value bytes, and `total + 8` is pushed, leaving
`s - num_children + 1` entries. -/
theorem claim3_write_node_effect (P : PureCodec α) (stack buf : List Nat)
    (v : α) (nc : Nat) (h : nc ≤ stack.length)
    (hfit : (P.enc v).length + (stack.drop (stack.length - nc)).sum + 8 < 2 ^ 64) :
    write_node (P.toNodeImpl vecWriter) vecWriter ⟨stack, buf⟩ v nc =
      .ok ⟨stack.take (stack.length - nc) ++
            [(P.enc v).length + (stack.drop (stack.length - nc)).sum + 8],
          buf ++ P.enc v ++
            toLeBytes 8 ((P.enc v).length + (stack.drop (stack.length - nc)).sum)⟩ ∧
    (toLeBytes 8 ((P.enc v).length + (stack.drop (stack.length - nc)).sum)).length
      = 8 ∧
    fromLeBytes (toLeBytes 8 ((P.enc v).length + (stack.drop (stack.length - nc)).sum))
      = (P.enc v).length + (stack.drop (stack.length - nc)).sum ∧
    (stack.take (stack.length - nc) ++
      [(P.enc v).length + (stack.drop (stack.length - nc)).sum + 8]).length
      = stack.length - nc + 1 := by
  refine ⟨?_, toLeBytes_length _ _, ?_, ?_⟩
  · rw [write_node_pure P stack buf v nc h]
    have hm1 : ((P.enc v).length + (stack.drop (stack.length - nc)).sum) % 2 ^ 64
        = (P.enc v).length + (stack.drop (stack.length - nc)).sum :=
      Nat.mod_eq_of_lt (by omega)
    have hm2 : ((P.enc v).length + (stack.drop (stack.length - nc)).sum
          + TREE_SIZE_SIZE) % 2 ^ 64
        = (P.enc v).length + (stack.drop (stack.length - nc)).sum + TREE_SIZE_SIZE :=
      Nat.mod_eq_of_lt (by simp only [TREE_SIZE_SIZE]; omega)
    simp only [TREE_SIZE_SIZE] at hm1 hm2 ⊢
    rw [hm1, hm2]
  · rw [fromLeBytes_toLeBytes]
    apply Nat.mod_eq_of_lt
    have h2 : (256 : Nat) ^ 8 = 2 ^ 64 := by norm_num
    omega
  · simp

/-- C3 witness: stack `[9, 9]`, one child popped. -/
theorem claim3_write_node_effect_witness :
    write_node (U8.toNodeImpl vecWriter) vecWriter ⟨[9, 9], []⟩ 5 1 =
      .ok ⟨([9, 9] : List Nat).take 1 ++
            [(U8.enc 5).length + (([9, 9] : List Nat).drop 1).sum + 8],
          [] ++ U8.enc 5 ++
            toLeBytes 8 ((U8.enc 5).length + (([9, 9] : List Nat).drop 1).sum)⟩ ∧
    (toLeBytes 8 ((U8.enc 5).length + (([9, 9] : List Nat).drop 1).sum)).length = 8 ∧
    fromLeBytes (toLeBytes 8 ((U8.enc 5).length + (([9, 9] : List Nat).drop 1).sum))
      = (U8.enc 5).length + (([9, 9] : List Nat).drop 1).sum ∧
    (([9, 9] : List Nat).take 1 ++
      [(U8.enc 5).length + (([9, 9] : List Nat).drop 1).sum + 8]).length = 2 :=
  claim3_write_node_effect U8 [9, 9] [] 5 1 (by decide) (by decide)

/-- C5: when `num_children` exceeds the open-size stack length, `write_node`
never succeeds; as soon as the value write itself went through, it hits the
contract-violation (panic) branch, producing no output claiming a valid
structure. -/
theorem claim5_contract_violation (N : NodeImpl α ω) (W : WriterImpl ω)
    (b : TreeBuilder ω) (v : α) (nc : Nat)
    (h : b.open_node_sizes.length < nc) :
    (∀ b' : TreeBuilder ω, write_node N W b v nc ≠ .ok b') ∧
    (∀ (w1 : ω) (sv : Nat), N.write_value b.writer v = .ok (w1, sv) →
      write_node N W b v nc = .contractViolation) := by
  constructor
  · intro b' hcon
    rw [write_node] at hcon
    split at hcon
    · exact WriteNodeResult.noConfusion hcon
    · rw [if_neg (by omega)] at hcon
      exact WriteNodeResult.noConfusion hcon
  · intro w1 sv hw
    simp only [write_node, hw]
    rw [if_neg (by omega)]

/-- C5 witness: empty stack, one child requested. -/
theorem claim5_contract_violation_witness :
    (∀ b' : TreeBuilder (List Nat),
      write_node (U8.toNodeImpl vecWriter) vecWriter (TreeBuilder.new []) 7 1
        ≠ .ok b') ∧
    write_node (U8.toNodeImpl vecWriter) vecWriter (TreeBuilder.new []) 7 1
      = .contractViolation :=
  ⟨(claim5_contract_violation _ _ _ 7 1 (by decide)).1,
   (claim5_contract_violation _ _ _ 7 1 (by decide)).2 [7] 1 rfl⟩

/-- C6: on a view of `n ≥ 8` bytes whose codec decodes the first `n - 8`
bytes from the back as `(size_value, value)` with `size_value ≤ n - 8`,
`read_node` returns that value together with the children region
`bytes[0 .. n-8-size_value]`; the view's own 8 trailer bytes are never
consulted — replacing them changes nothing. -/
theorem claim6_read_node (dec : List Nat → Option (Nat × α)) (bytes : List Nat)
    (sv : Nat) (v : α) (h8 : 8 ≤ bytes.length)
    (hdec : dec (bytes.take (bytes.length - 8)) = some (sv, v))
    (hsv : sv ≤ bytes.length - 8) :
    read_node dec bytes = some (v, bytes.take (bytes.length - 8 - sv)) ∧
    (∀ tl : List Nat, tl.length = 8 →
      read_node dec (bytes.take (bytes.length - 8) ++ tl)
        = some (v, bytes.take (bytes.length - 8 - sv))) := by
  have hblen : (bytes.take (bytes.length - 8)).length = bytes.length - 8 := by
    simp
  constructor
  · rw [read_node, if_pos h8]
    simp only [TREE_SIZE_SIZE]
    rw [hdec]
    show (if sv ≤ bytes.length - 8
        then some (v, bytes.take (bytes.length - 8 - sv)) else none)
      = some (v, bytes.take (bytes.length - 8 - sv))
    rw [if_pos hsv]
  · intro tl htl
    have hlen2 : (bytes.take (bytes.length - 8) ++ tl).length = bytes.length := by
      simp [htl]
      omega
    have htake : (bytes.take (bytes.length - 8) ++ tl).take
        ((bytes.take (bytes.length - 8) ++ tl).length - 8)
        = bytes.take (bytes.length - 8) := by
      rw [hlen2]
      exact List.take_left' (by omega)
    have htake2 : (bytes.take (bytes.length - 8) ++ tl).take
        ((bytes.take (bytes.length - 8) ++ tl).length - 8 - sv)
        = bytes.take (bytes.length - 8 - sv) := by
      rw [hlen2, List.take_append_of_le_length (by omega), List.take_take]
      congr 1
      omega
    rw [read_node, if_pos (by rw [hlen2]; omega)]
    simp only [TREE_SIZE_SIZE]
    rw [htake, hdec]
    show (if sv ≤ (bytes.take (bytes.length - 8) ++ tl).length - 8
        then some (v, (bytes.take (bytes.length - 8) ++ tl).take
          ((bytes.take (bytes.length - 8) ++ tl).length - 8 - sv)) else none)
      = some (v, bytes.take (bytes.length - 8 - sv))
    rw [if_pos (by rw [hlen2]; omega), htake2]

/-- C6 witness: a 9-byte buffer under the `U8` codec. -/
theorem claim6_read_node_witness :
    read_node U8.dec [5, 1, 0, 0, 0, 0, 0, 0, 0] =
      some (5, ([5, 1, 0, 0, 0, 0, 0, 0, 0] : List Nat).take
        (([5, 1, 0, 0, 0, 0, 0, 0, 0] : List Nat).length - 8 - 1)) :=
  (claim6_read_node U8.dec [5, 1, 0, 0, 0, 0, 0, 0, 0] 1 5
    (by decide) (by decide) (by decide)).1

/-- C7: `Branches.next` on an empty region reports the iteration done; on a
region whose last 8 bytes decode (little-endian) to `t` with
`t + 8 ≤ length`, it yields the final `t + 8` bytes as the child and advances
the region to the remaining prefix. -/
theorem claim7_branches_next (bytes : List Nat) :
    (bytes.isEmpty = true → Branches.next bytes = .done) ∧
    (∀ t : Nat, t = fromLeBytes (bytes.drop (bytes.length - 8)) →
      t + 8 ≤ bytes.length →
      Branches.next bytes =
        .item (bytes.drop (bytes.length - t - 8))
          (bytes.take (bytes.length - t - 8))) := by
  constructor
  · intro h
    rw [Branches.next, if_pos h]
  · intro t ht hle
    have hne : ¬ bytes.isEmpty = true := by
      rw [List.isEmpty_iff]
      intro hcon
      rw [hcon] at hle
      simp at hle
    rw [Branches.next, if_neg hne, if_pos (by simp only [TREE_SIZE_SIZE]; omega)]
    simp only [TREE_SIZE_SIZE]
    rw [← ht, if_pos hle]

/-- C7 witness: the empty region and a single 9-byte child region. -/
theorem claim7_branches_next_witness :
    Branches.next [] = .done ∧
    Branches.next [2, 1, 0, 0, 0, 0, 0, 0, 0] =
      .item (([2, 1, 0, 0, 0, 0, 0, 0, 0] : List Nat).drop
          (([2, 1, 0, 0, 0, 0, 0, 0, 0] : List Nat).length - 1 - 8))
        (([2, 1, 0, 0, 0, 0, 0, 0, 0] : List Nat).take
          (([2, 1, 0, 0, 0, 0, 0, 0, 0] : List Nat).length - 1 - 8)) :=
  ⟨(claim7_branches_next []).1 (by decide),
   (claim7_branches_next [2, 1, 0, 0, 0, 0, 0, 0, 0]).2 1 (by decide) (by decide)⟩

/-- C2: a buffer built by writing children `c_1 ... c_k` as completed
subtrees and then their parent with `num_children = k` decodes to the parent
value with a `Branches` iterator yielding the children in reverse insertion
order (`c_k` first, `c_1` last, then nothing); concretely, with `U8` leaves
`1` then `2` under parent `3`, decoding yields `3`, then child value `2`,
then child value `1`, then no more children. -/
theorem claim2_reverse_order (P : PureCodec α) (v : α) (cs : List (Tree α))
    (hfit : fitsTree P.enc (.node v cs) = true)
    (hdec : ∀ pre : List Nat, P.dec (pre ++ P.enc v) = some ((P.enc v).length, v)) :
    (runCalls (P.toNodeImpl vecWriter) vecWriter (TreeBuilder.new [])
        (postOrderCalls (.node v cs)) =
      .ok ⟨[(encodeTree P.enc (.node v cs)).length], encodeTree P.enc (.node v cs)⟩ ∧
     read_node P.dec (encodeTree P.enc (.node v cs)) =
       some (v, encodeForest P.enc cs) ∧
     branchesList (encodeForest P.enc cs) =
       some ((cs.map (encodeTree P.enc)).reverse) ∧
     Branches.next [] = .done) ∧
    (runCalls (U8.toNodeImpl vecWriter) vecWriter (TreeBuilder.new [])
        [(1, 0), (2, 0), (3, 2)] =
      .ok ⟨[27], [1, 1, 0, 0, 0, 0, 0, 0, 0, 2, 1, 0, 0, 0, 0, 0, 0, 0,
                  3, 19, 0, 0, 0, 0, 0, 0, 0]⟩ ∧
     read_node U8.dec [1, 1, 0, 0, 0, 0, 0, 0, 0, 2, 1, 0, 0, 0, 0, 0, 0, 0,
                       3, 19, 0, 0, 0, 0, 0, 0, 0] =
       some (3, [1, 1, 0, 0, 0, 0, 0, 0, 0, 2, 1, 0, 0, 0, 0, 0, 0, 0]) ∧
     Branches.next [1, 1, 0, 0, 0, 0, 0, 0, 0, 2, 1, 0, 0, 0, 0, 0, 0, 0] =
       .item [2, 1, 0, 0, 0, 0, 0, 0, 0] [1, 1, 0, 0, 0, 0, 0, 0, 0] ∧
     read_node U8.dec [2, 1, 0, 0, 0, 0, 0, 0, 0] = some (2, []) ∧
     Branches.next [1, 1, 0, 0, 0, 0, 0, 0, 0] =
       .item [1, 1, 0, 0, 0, 0, 0, 0, 0] [] ∧
     read_node U8.dec [1, 1, 0, 0, 0, 0, 0, 0, 0] = some (1, []) ∧
     Branches.next [] = .done) := by
  have hfit' := hfit
  rw [fitsTree_node_iff] at hfit'
  constructor
  · refine ⟨?_, read_node_encodeTree P v cs hdec,
      branchesList_encodeForest P.enc cs hfit'.2, rfl⟩
    have hrun := runCalls_postOrder P v cs hfit [] []
    simpa [TreeBuilder.new] using hrun
  · exact ⟨rfl, by decide, by decide, by decide, by decide, by decide, rfl⟩

/-- C2 witness: the parent `3` with `U8` leaf children `1` then `2`. -/
theorem claim2_reverse_order_witness :
    runCalls (U8.toNodeImpl vecWriter) vecWriter (TreeBuilder.new [])
        (postOrderCalls (.node 3 [.node 1 [], .node 2 []])) =
      .ok ⟨[(encodeTree U8.enc (.node 3 [.node 1 [], .node 2 []])).length],
           encodeTree U8.enc (.node 3 [.node 1 [], .node 2 []])⟩ ∧
    branchesList (encodeForest U8.enc [.node 1 [], .node 2 []]) =
      some (([Tree.node 1 [], Tree.node 2 []].map (encodeTree U8.enc)).reverse) :=
  ⟨((claim2_reverse_order U8 3 [.node 1 [], .node 2 []] (by decide)
      (fun pre => U8_dec_append pre 3 (by decide))).1).1,
   ((claim2_reverse_order U8 3 [.node 1 [], .node 2 []] (by decide)
      (fun pre => U8_dec_append pre 3 (by decide))).1).2.2.1⟩

/-- C4: running the depth-first post-order `write_node` sequence of any tree
produces exactly its recursive encoding, and in that encoding the trailer of
every node at every depth equals the node's value-byte count plus the sum of
the trailer-inclusive lengths (`trailer value + 8`) of its children. -/
theorem claim4_size_accounting (P : PureCodec α) (v : α) (cs : List (Tree α))
    (hfit : fitsTree P.enc (.node v cs) = true) :
    runCalls (P.toNodeImpl vecWriter) vecWriter (TreeBuilder.new [])
        (postOrderCalls (.node v cs)) =
      .ok ⟨[(encodeTree P.enc (.node v cs)).length],
           encodeTree P.enc (.node v cs)⟩ ∧
    trailerInvariant P.enc (.node v cs) := by
  constructor
  · have hrun := runCalls_postOrder P v cs hfit [] []
    simpa [TreeBuilder.new] using hrun
  · exact trailerInvariant_holds P.enc v cs hfit

/-- C4 witness: a three-level chain under the `U8` codec. -/
theorem claim4_size_accounting_witness :
    runCalls (U8.toNodeImpl vecWriter) vecWriter (TreeBuilder.new [])
        (postOrderCalls (.node 3 [.node 2 [.node 1 []]])) =
      .ok ⟨[(encodeTree U8.enc (.node 3 [.node 2 [.node 1 []]])).length],
           encodeTree U8.enc (.node 3 [.node 2 [.node 1 []]])⟩ ∧
    trailerInvariant U8.enc (.node 3 [.node 2 [.node 1 []]]) :=
  claim4_size_accounting U8 3 [.node 2 [.node 1 []]] (by decide)

/-- C8: on the children region the builder produces for `k` children,
iterating `Branches` terminates: it yields exactly the `k` children and then
reports done on the empty remaining region, and every single `next` step that
yields an item shrinks its region by at least 8 bytes. -/
theorem claim8_termination (P : PureCodec α) (cs : List (Tree α))
    (hfit : fitsForest P.enc cs = true) :
    branchesList (encodeForest P.enc cs) =
      some ((cs.map (encodeTree P.enc)).reverse) ∧
    ((cs.map (encodeTree P.enc)).reverse).length = cs.length ∧
    (∀ b c r : List Nat, Branches.next b = .item c r → r.length + 8 ≤ b.length) ∧
    Branches.next [] = .done := by
  refine ⟨branchesList_encodeForest P.enc cs hfit, by simp, ?_, rfl⟩
  intro b c r h
  have := next_item_bounds h
  simpa [TREE_SIZE_SIZE] using this

/-- C8 witness: two `U8` leaves. -/
theorem claim8_termination_witness :
    branchesList (encodeForest U8.enc [.node 1 [], .node 2 []]) =
      some (([Tree.node 1 [], Tree.node 2 []].map (encodeTree U8.enc)).reverse) ∧
    (([Tree.node 1 [], Tree.node 2 []].map (encodeTree U8.enc)).reverse).length = 2 :=
  ⟨(claim8_termination U8 [.node 1 [], .node 2 []] (by decide)).1,
   (claim8_termination U8 [.node 1 [], .node 2 []] (by decide)).2.1⟩

/-- C9: if the codec's value write fails with an I/O error, `write_node`
propagates it leaving the open-size stack untouched; if instead the value
write succeeds and the trailer write fails, the `num_children` entries have
already been popped and no new entry has been pushed. -/
theorem claim9_io_error_state (N : NodeImpl α ω) (W : WriterImpl ω)
    (b : TreeBuilder ω) (v : α) (nc : Nat) :
    (∀ w : ω, N.write_value b.writer v = .error w →
      write_node N W b v nc = .ioError ⟨b.open_node_sizes, w⟩) ∧
    (∀ (w1 : ω) (sv : Nat) (w2 : ω), N.write_value b.writer v = .ok (w1, sv) →
      nc ≤ b.open_node_sizes.length →
      W.write_all w1 (toLeBytes 8 ((sv +
          (b.open_node_sizes.drop (b.open_node_sizes.length - nc)).sum) % 2 ^ 64))
        = .error w2 →
      write_node N W b v nc =
        .ioError ⟨b.open_node_sizes.take (b.open_node_sizes.length - nc), w2⟩) := by
  constructor
  · intro w hw
    simp only [write_node, hw]
  · intro w1 sv w2 hw hnc hall
    simp only [write_node, hw, TREE_SIZE_SIZE]
    rw [if_pos hnc]
    simp only [hall]

/-- C9 witness: `boundedWriter` with capacity 0 (value write fails, stack
untouched) and capacity 1 (value write succeeds, trailer write fails). -/
theorem claim9_io_error_state_witness :
    write_node (U8.toNodeImpl boundedWriter) boundedWriter ⟨[], ([], 0)⟩ 7 0 =
      .ioError ⟨[], ([], 0)⟩ ∧
    write_node (U8.toNodeImpl boundedWriter) boundedWriter ⟨[], ([], 1)⟩ 7 0 =
      .ioError ⟨[], ([7], 0)⟩ :=
  ⟨(claim9_io_error_state (U8.toNodeImpl boundedWriter) boundedWriter
      ⟨[], ([], 0)⟩ 7 0).1 ([], 0) rfl,
   (claim9_io_error_state (U8.toNodeImpl boundedWriter) boundedWriter
      ⟨[], ([], 1)⟩ 7 0).2 ([7], 0) 1 ([7], 0) rfl (by decide) rfl⟩

/-- C10: the reader constructors accept arbitrary bytes unchanged and
inspect none of them; the read operations fail (modelled panic) on malformed
input instead of yielding garbage: `read_node` on a view shorter than the
trailer plus the codec width, and `Branches.next` on a non-empty region
shorter than 8 bytes or with a trailer value pointing outside the region. -/
theorem claim10_defensive (α : Type) (dec : List Nat → Option (Nat × α)) :
    (∀ bytes : List Nat,
      TreeVec.new bytes = bytes ∧ TreeSlice.from_slice bytes = bytes) ∧
    (∀ bytes : List Nat, bytes.length < 8 → read_node dec bytes = none) ∧
    (∀ bytes : List Nat, bytes.length < 12 → read_node LeI32.dec bytes = none) ∧
    (∀ bytes : List Nat, bytes.length < 9 → read_node U8.dec bytes = none) ∧
    (∀ bytes : List Nat, bytes ≠ [] → bytes.length < 8 →
      Branches.next bytes = .outOfBounds) ∧
    (∀ bytes : List Nat, bytes ≠ [] →
      bytes.length < fromLeBytes (bytes.drop (bytes.length - 8)) + 8 →
      Branches.next bytes = .outOfBounds) := by
  refine ⟨fun bytes => ⟨rfl, rfl⟩, ?_, ?_, ?_, ?_, ?_⟩
  · intro bytes h
    rw [read_node, if_neg (by omega)]
  · intro bytes h
    rcases Nat.lt_or_ge bytes.length 8 with h8 | h8
    · rw [read_node, if_neg (by omega)]
    · rw [read_node, if_pos h8]
      have hdecn : LeI32.dec (bytes.take (bytes.length - TREE_SIZE_SIZE)) = none := by
        simp only [LeI32]
        rw [if_neg (by simp [TREE_SIZE_SIZE]; omega)]
      rw [hdecn]
  · intro bytes h
    rcases Nat.lt_or_ge bytes.length 8 with h8 | h8
    · rw [read_node, if_neg (by omega)]
    · rw [read_node, if_pos h8]
      have hdecn : U8.dec (bytes.take (bytes.length - TREE_SIZE_SIZE)) = none := by
        simp only [U8]
        rw [if_neg (by simp [TREE_SIZE_SIZE]; omega)]
      rw [hdecn]
  · intro bytes hne h
    rw [Branches.next, if_neg (by rw [List.isEmpty_iff]; exact hne),
      if_neg (by simp only [TREE_SIZE_SIZE]; omega)]
  · intro bytes hne h
    rw [Branches.next, if_neg (by rw [List.isEmpty_iff]; exact hne)]
    split
    · dsimp only
      rw [if_neg (by simp only [TREE_SIZE_SIZE] at h ⊢; omega)]
    · rfl

/-- C10 witness: concrete malformed inputs. -/
theorem claim10_defensive_witness :
    read_node U8.dec [1, 2, 3] = none ∧
    read_node LeI32.dec [0, 0, 0, 0, 0, 0, 0, 0, 0, 0, 0] = none ∧
    Branches.next [1, 2, 3] = .outOfBounds ∧
    Branches.next [9, 1, 0, 0, 0, 0, 0, 0, 2] = .outOfBounds :=
  ⟨(claim10_defensive Nat U8.dec).2.2.2.1 [1, 2, 3] (by decide),
   (claim10_defensive Nat U8.dec).2.2.1 [0, 0, 0, 0, 0, 0, 0, 0, 0, 0, 0] (by decide),
   (claim10_defensive Nat U8.dec).2.2.2.2.1 [1, 2, 3] (by decide) (by decide),
   (claim10_defensive Nat U8.dec).2.2.2.2.2 [9, 1, 0, 0, 0, 0, 0, 0, 2]
     (by decide) (by decide)⟩

end ContigiousTree
